import Mathlib

/-!
Verification development for the medical phase simulator's image pipeline
(`src/backend/processing.py` and `src/backend/app.py`).

The repository's own code composes library image operations (histogram
equalization, unsharp masking, brightness/contrast enhancement, Gaussian
blur, PNG encode/decode); the bodies of those operations are not part of
the repository, so they are modelled here from the specification, while
the composition structure, the numeric parameters (radius 2, percent 125,
threshold 3, brightness 1.05, contrast 1.35) and the HTTP wrapper are
embedded from the source.
-/

set_option maxRecDepth 100000

namespace MedSim

/-- Clamp an integer intensity into the 8-bit range [0, 255]. -/
def clamp255 (z : ℤ) : ℕ := (min z 255).toNat

/-- Modelled from the spec: an Image is a 2-D grid of unsigned 8-bit
intensity samples, width by height, single channel.  `pix y x` is the
sample at row `y`, column `x`; only indices with `y < height` and
`x < width` are meaningful. -/
structure Image where
  width : ℕ
  height : ℕ
  pix : ℕ → ℕ → ℕ

/-- The Image invariant from the spec: every sample is in [0, 255] and the
dimensions are positive. -/
def Valid (img : Image) : Prop :=
  0 < img.width ∧ 0 < img.height ∧
    ∀ y < img.height, ∀ x < img.width, img.pix y x ≤ 255

instance decValid (img : Image) : Decidable (Valid img) := by
  unfold Valid; infer_instance

/-- Two images agree as images: same dimensions and bit-identical samples
at every in-bounds position. -/
def sameImage (a b : Image) : Prop :=
  a.width = b.width ∧ a.height = b.height ∧
    ∀ y < a.height, ∀ x < a.width, a.pix y x = b.pix y x

instance decSameImage (a b : Image) : Decidable (sameImage a b) := by
  unfold sameImage; infer_instance

/-- The in-bounds pixel positions of an image, as (row, column) pairs. -/
def pixPos (img : Image) : Finset (ℕ × ℕ) :=
  Finset.range img.height ×ˢ Finset.range img.width

/-- Total number of pixels of an image. -/
def total (img : Image) : ℕ := img.height * img.width

/-- Modelled from the spec: the 256-bin intensity histogram; `hist img v`
counts the pixels whose value is exactly `v`. -/
def hist (img : Image) (v : ℕ) : ℕ :=
  ∑ p ∈ pixPos img, if img.pix p.1 p.2 = v then 1 else 0

/-- Modelled from the spec: the cumulative distribution function of the
histogram; `cdf img v` counts the pixels whose value is at most `v`. -/
def cdf (img : Image) (v : ℕ) : ℕ :=
  ∑ u ∈ Finset.range (v + 1), hist img u

/-- Smallest intensity value present in the image (255 on empty images). -/
def imgMin (img : Image) : ℕ :=
  (pixPos img).fold min 255 (fun p => img.pix p.1 p.2)

/-- The smallest nonzero cumulative count, realized as the cdf at the
smallest intensity present. -/
def cdfMin (img : Image) : ℕ := cdf img (imgMin img)

/-- The set of nonzero cumulative counts of the 256-bin histogram. -/
def cdfSet (img : Image) : Finset ℕ :=
  ((Finset.range 256).image (cdf img)).filter (fun c => 0 < c)

/-- Modelled from the spec: histogram equalization (the body of
`ImageOps.equalize` is not in the repository).  Each pixel value `v` is
remapped to `round((cdf v - cdf_min) / (total_pixels - cdf_min) * 255)`;
on a uniform image (where `cdf_min` equals the total pixel count) it is
the identity map, avoiding the division by zero. -/
def equalize (img : Image) : Image :=
  { width := img.width, height := img.height,
    pix := fun y x =>
      if cdfMin img = total img then img.pix y x
      else (round ((((cdf img (img.pix y x) : ℚ) - (cdfMin img : ℚ)) /
        ((total img : ℚ) - (cdfMin img : ℚ))) * 255)).toNat }

/-- Clamp a signed index into [0, n-1] (clamp-to-edge border handling). -/
def clampIdx (n : ℕ) (z : ℤ) : ℕ := (min z ((n : ℤ) - 1)).toNat

/-- Modelled from the spec: a normalized discrete approximation of a
Gaussian kernel of radius 2 (the blur implementation inside the imaging
library is not in the repository).  Weights 1/16, 4/16, 6/16, 4/16, 1/16
at offsets -2..2, summing to 1 (energy conservation). -/
def gaussK (k : ℤ) : ℚ :=
  if k = 0 then 6/16
  else if k = 1 ∨ k = -1 then 4/16
  else if k = 2 ∨ k = -2 then 1/16
  else 0

/-- One-dimensional pass of the separable Gaussian blur over a line of
`n` samples, with clamp-to-edge border handling. -/
def blur1 (n : ℕ) (g : ℕ → ℚ) (x : ℕ) : ℚ :=
  ∑ k ∈ Finset.Icc (-2 : ℤ) 2, gaussK k * g (clampIdx n ((x : ℤ) + k))

/-- Modelled from the spec: 2-D Gaussian blur of radius 2 as a separable
convolution, horizontal pass then vertical pass, clamp-to-edge borders.
Returns the exact rational intensity at each position. -/
def gaussBlurQ (img : Image) : ℕ → ℕ → ℚ := fun y x =>
  blur1 img.height (fun y2 => blur1 img.width (fun x2 => (img.pix y2 x2 : ℚ)) x) y

/-- Modelled from the spec: unsharp masking with percent/threshold
parameters (the body of `ImageFilter.UnsharpMask` is not in the
repository).  `sharpened = original + percent/100 * (original - blurred)`
clamped to [0,255], applied only where `|original - blurred| >= threshold`,
else the pixel is unchanged; the blurred copy uses the radius-2 Gaussian. -/
def unsharpMask (percent threshold : ℕ) (img : Image) : Image :=
  { width := img.width, height := img.height,
    pix := fun y x =>
      let o : ℚ := (img.pix y x : ℚ)
      let b : ℚ := gaussBlurQ img y x
      if (threshold : ℚ) ≤ |o - b| then
        clamp255 (round (o + ((percent : ℚ) / 100) * (o - b)))
      else img.pix y x }

/-- Mean intensity of an image, as an exact rational. -/
def meanQ (img : Image) : ℚ :=
  (∑ p ∈ pixPos img, (img.pix p.1 p.2 : ℚ)) / (total img : ℚ)

/-- Modelled from the spec: pixel-wise brightness scaling
`v' = clamp(v * factor, 0, 255)` (the body of `ImageEnhance.Brightness`
is not in the repository). -/
def brightnessEnhance (factor : ℚ) (img : Image) : Image :=
  { width := img.width, height := img.height,
    pix := fun y x => clamp255 (round (factor * (img.pix y x : ℚ))) }

/-- Modelled from the spec: contrast scaling around the image mean,
`v'' = clamp(mean + (v' - mean) * factor, 0, 255)` where `mean` is the
mean intensity of the input image (the body of `ImageEnhance.Contrast`
is not in the repository). -/
def contrastEnhance (factor : ℚ) (img : Image) : Image :=
  { width := img.width, height := img.height,
    pix := fun y x =>
      clamp255 (round (meanQ img + ((img.pix y x : ℚ) - meanQ img) * factor)) }

/-- The arterial transform of `simulate_arterial` in
`src/backend/processing.py`: histogram equalization, then unsharp mask
(radius 2, percent 125, threshold 3), then brightness 1.05, then
contrast 1.35, each step consuming the previous step's full output. -/
def simulate_arterial (img : Image) : Image :=
  contrastEnhance (135/100) (brightnessEnhance (105/100) (unsharpMask 125 3 (equalize img)))

/-- The venous transform of `simulate_venous` in
`src/backend/processing.py`: a single Gaussian blur of radius 2, the
rational result stored back into 8-bit samples by rounding. -/
def simulate_venous (img : Image) : Image :=
  { width := img.width, height := img.height,
    pix := fun y x => (round (gaussBlurQ img y x)).toNat }

/-- Modelled from the spec: the error raised by the decoder on bytes that
are not a recognized raster format or are truncated/corrupt. -/
inductive DecodeError where
  | invalid : DecodeError
deriving DecidableEq

/-- Modelled from the spec: the encoder `to_png_bytes` (the PNG codec
itself is not in the repository), replaced by a lossless container: a
3-byte signature, the dimensions, then the samples row-major. -/
def to_png_bytes (img : Image) : List ℕ :=
  80 :: 78 :: 71 :: img.width :: img.height ::
    (List.range (img.height * img.width)).map
      (fun i => img.pix (i / img.width) (i % img.width))

/-- Modelled from the spec: the decoder `load_image` (the raster decoding
inside the imaging library is not in the repository): recognizes only the
lossless container written by `to_png_bytes`, checks the dimensions are
positive, the payload length matches, and every sample fits in 8 bits,
and fails with `DecodeError` otherwise — in particular on empty input. -/
def load_image (b : List ℕ) : Except DecodeError Image :=
  match b with
  | sp :: sn :: sg :: w :: h :: data =>
    if sp = 80 ∧ sn = 78 ∧ sg = 71 ∧ 0 < w ∧ 0 < h ∧
        data.length = h * w ∧ ∀ p ∈ data, p ≤ 255 then
      .ok { width := w, height := h,
            pix := fun y x => if y < h ∧ x < w then data.getD (y * w + x) 0 else 0 }
    else .error .invalid
  | _ => .error .invalid

/-- The phase selector of the pipeline. -/
inductive Phase where
  | arterial : Phase
  | venous : Phase

/-- Dispatch of the phase-specific transform, as in `process_image`. -/
def applyPhase : Phase → Image → Image
  | .arterial, img => simulate_arterial img
  | .venous, img => simulate_venous img

/-- The core pipeline boundary of the spec: decode, transform by phase,
re-encode. -/
def run_pipeline (b : List ℕ) (ph : Phase) : Except DecodeError (List ℕ) :=
  (load_image b).map (fun img => to_png_bytes (applyPhase ph img))

/-- Responses of the HTTP wrapper, as distinguished by `process_image` in
`src/backend/app.py`: a success payload, the 400 rejection, or the 500
catch-all. -/
inductive ApiResponse where
  | success : Phase → List ℕ → ApiResponse
  | badRequest : ApiResponse
  | serverError : ApiResponse

/-- The content types accepted by `process_image` in `src/backend/app.py`. -/
def allowedTypes : List String := ["image/jpeg", "image/png", "image/jpg"]

/-- The `/process` handler of `src/backend/app.py`: reject the request
with 400 when the declared content type is not allowed; afterwards run
the pipeline and map any failure to the 500 catch-all. -/
def process_image (contentType : String) (body : List ℕ) (ph : Phase) : ApiResponse :=
  if contentType ∈ allowedTypes then
    match run_pipeline body ph with
    | .ok png => .success ph png
    | .error _ => .serverError
  else .badRequest

/-! ### Concrete images and auxiliary grids used by the development -/

/-- A 1-by-2 image holding one black and one white pixel. -/
def imgTwo : Image := ⟨2, 1, fun _ x => if x = 0 then 0 else 255⟩

/-- A uniform 2-by-2 image of intensity 7. -/
def imgUniform : Image := ⟨2, 2, fun _ _ => 7⟩

/-- A single-pixel image of intensity `c`. -/
def unitImg (c : ℕ) : Image := ⟨1, 1, fun _ _ => c⟩

/-- The 513-pixel image whose equalization merges the two lowest levels,
shifting the smallest nonzero cumulative count for the second pass. -/
def img513 : Image :=
  ⟨513, 1, fun _ x => if x = 0 then 0 else if x = 1 then 1 else if x ≤ 256 then 2 else 3⟩

/-- The explicit value of the first equalization pass on `img513`. -/
def img513eq : Image :=
  ⟨513, 1, fun _ x => if x ≤ 1 then 0 else if x ≤ 256 then 128 else 255⟩

/-- The image produced by decoding the encoder's output. -/
def decodedOf (img : Image) : Image :=
  { width := img.width, height := img.height,
    pix := fun y x =>
      if y < img.height ∧ x < img.width then
        ((List.range (img.height * img.width)).map
          (fun i => img.pix (i / img.width) (i % img.width))).getD
          (y * img.width + x) 0
      else 0 }

/-- Modelled from the spec: the arterial chain written out per pixel,
following the spec's three bullet points literally: histogram
equalization, then unsharp masking (Gaussian radius 2, percent 125,
threshold 3), then brightness 1.05 followed by contrast 1.35 around the
mean of the brightness-scaled image. -/
def specArterialPix (img : Image) (y x : ℕ) : ℕ :=
  let E : Image := equalize img
  let U : Image :=
    { width := E.width, height := E.height,
      pix := fun y2 x2 =>
        let o : ℚ := (E.pix y2 x2 : ℚ)
        let b : ℚ := gaussBlurQ E y2 x2
        if ((3 : ℕ) : ℚ) ≤ |o - b| then
          clamp255 (round (o + (((125 : ℕ) : ℚ) / 100) * (o - b)))
        else E.pix y2 x2 }
  let B : Image :=
    { width := U.width, height := U.height,
      pix := fun y2 x2 => clamp255 (round ((105 / 100 : ℚ) * (U.pix y2 x2 : ℚ))) }
  clamp255 (round (meanQ B + ((B.pix y x : ℚ) - meanQ B) * (135 / 100)))

/-- Sum of a line of samples read through the clamp-to-edge map shifted
by `k`. -/
def shiftSum (n : ℕ) (g : ℕ → ℚ) (k : ℤ) : ℚ :=
  ∑ x ∈ Finset.range n, g (clampIdx n ((x : ℤ) + k))

/-- The horizontal blur pass of an image, as a rational-valued grid. -/
def blurH (img : Image) : ℕ → ℕ → ℚ := fun y x =>
  blur1 img.width (fun x2 => (img.pix y x2 : ℚ)) x

/-! ### Basic facts about the histogram and its cumulative distribution -/

theorem clamp255_le (z : ℤ) : clamp255 z ≤ 255 := by
  unfold clamp255
  have := min_le_right z 255
  omega

theorem mem_pixPos {img : Image} {p : ℕ × ℕ} :
    p ∈ pixPos img ↔ p.1 < img.height ∧ p.2 < img.width := by
  unfold pixPos
  simp [Finset.mem_product]

theorem card_pixPos (img : Image) : (pixPos img).card = total img := by
  unfold pixPos total
  simp [Finset.card_product]

theorem cdf_eq_card (img : Image) (v : ℕ) :
    cdf img v = ∑ p ∈ pixPos img, if img.pix p.1 p.2 ≤ v then 1 else 0 := by
  unfold cdf hist
  rw [Finset.sum_comm]
  refine Finset.sum_congr rfl fun p _ => ?_
  rw [Finset.sum_ite_eq]
  simp [Finset.mem_range, Nat.lt_succ_iff]

theorem cdf_mono (img : Image) {u v : ℕ} (h : u ≤ v) : cdf img u ≤ cdf img v := by
  unfold cdf
  exact Finset.sum_le_sum_of_subset (Finset.range_subset.2 (by omega))

theorem cdf_le_total (img : Image) (v : ℕ) : cdf img v ≤ total img := by
  rw [cdf_eq_card, ← card_pixPos, Finset.card_eq_sum_ones]
  exact Finset.sum_le_sum fun p _ => by split <;> omega

theorem cdf_pos_of_pix_le {img : Image} {y x v : ℕ}
    (hy : y < img.height) (hx : x < img.width) (hle : img.pix y x ≤ v) :
    0 < cdf img v := by
  rw [cdf_eq_card]
  have hmem : (y, x) ∈ pixPos img := mem_pixPos.2 ⟨hy, hx⟩
  rw [Nat.pos_iff_ne_zero]
  intro h0
  have := (Finset.sum_eq_zero_iff.1 h0) (y, x) hmem
  simp only [hle] at this
  simp at this

theorem imgMin_le_pix {img : Image} {p : ℕ × ℕ} (hp : p ∈ pixPos img) :
    imgMin img ≤ img.pix p.1 p.2 :=
  (Finset.fold_min_le _).2 (Or.inr ⟨p, hp, le_rfl⟩)

theorem imgMin_le_255 (img : Image) : imgMin img ≤ 255 :=
  (Finset.fold_min_le _).2 (Or.inl le_rfl)

theorem exists_pix_eq_imgMin {img : Image} (hv : Valid img) :
    ∃ p ∈ pixPos img, img.pix p.1 p.2 = imgMin img := by
  have h0 : (0, 0) ∈ pixPos img := mem_pixPos.2 ⟨hv.2.1, hv.1⟩
  rcases (Finset.fold_min_le (imgMin img)).1 le_rfl with h255 | ⟨p, hp, hle⟩
  · refine ⟨(0, 0), h0, ?_⟩
    show img.pix 0 0 = imgMin img
    have h1 : imgMin img ≤ img.pix 0 0 := by simpa using imgMin_le_pix h0
    have h2 := hv.2.2 0 hv.2.1 0 hv.1
    omega
  · exact ⟨p, hp, le_antisymm hle (imgMin_le_pix hp)⟩

theorem cdfMin_pos {img : Image} (hv : Valid img) : 0 < cdfMin img := by
  obtain ⟨p, hp, hpe⟩ := exists_pix_eq_imgMin hv
  exact cdf_pos_of_pix_le (mem_pixPos.1 hp).1 (mem_pixPos.1 hp).2 hpe.le

theorem imgMin_le_of_cdf_pos {img : Image} {v : ℕ} (h : 0 < cdf img v) :
    imgMin img ≤ v := by
  obtain ⟨u, hu, hne⟩ := Finset.exists_ne_zero_of_sum_ne_zero (by unfold cdf at h; omega :
    ∑ u ∈ Finset.range (v + 1), hist img u ≠ 0)
  obtain ⟨p, hp, hpne⟩ := Finset.exists_ne_zero_of_sum_ne_zero (by unfold hist at hne; exact hne :
    ∑ p ∈ pixPos img, (if img.pix p.1 p.2 = u then 1 else 0) ≠ 0)
  have hpe : img.pix p.1 p.2 = u := by by_contra hc; simp [hc] at hpne
  have := imgMin_le_pix hp
  have := Finset.mem_range.1 hu
  omega

theorem cdfMin_le_of_cdf_pos (img : Image) {v : ℕ} (h : 0 < cdf img v) :
    cdfMin img ≤ cdf img v :=
  cdf_mono img (imgMin_le_of_cdf_pos h)

theorem cdfMin_le_total (img : Image) : cdfMin img ≤ total img :=
  cdf_le_total img (imgMin img)

theorem cdfMin_isLeast {img : Image} (hv : Valid img) :
    cdfMin img ∈ cdfSet img ∧ ∀ c ∈ cdfSet img, cdfMin img ≤ c := by
  constructor
  · unfold cdfSet
    refine Finset.mem_filter.2 ⟨Finset.mem_image.2 ⟨imgMin img, ?_, rfl⟩, cdfMin_pos hv⟩
    exact Finset.mem_range.2 (by have := imgMin_le_255 img; omega)
  · intro c hc
    obtain ⟨hmem, hpos⟩ := Finset.mem_filter.1 hc
    obtain ⟨v, _, rfl⟩ := Finset.mem_image.1 hmem
    exact cdfMin_le_of_cdf_pos img hpos

/-- Uniform image: every cumulative count at or above the constant value
is the full pixel count. -/
theorem cdf_eq_total_of_uniform {img : Image} {c v : ℕ}
    (hc : ∀ y < img.height, ∀ x < img.width, img.pix y x = c) (hcv : c ≤ v) :
    cdf img v = total img := by
  rw [cdf_eq_card, ← card_pixPos, Finset.card_eq_sum_ones]
  refine Finset.sum_congr rfl fun p hp => ?_
  obtain ⟨h1, h2⟩ := mem_pixPos.1 hp
  rw [hc p.1 h1 p.2 h2, if_pos hcv]

theorem imgMin_eq_of_uniform {img : Image} {c : ℕ} (hv : Valid img)
    (hc : ∀ y < img.height, ∀ x < img.width, img.pix y x = c) :
    imgMin img = c := by
  have h0 : (0, 0) ∈ pixPos img := mem_pixPos.2 ⟨hv.2.1, hv.1⟩
  have hpix : img.pix 0 0 = c := hc 0 hv.2.1 0 hv.1
  have hmin : imgMin img ≤ img.pix 0 0 := by simpa using imgMin_le_pix h0
  refine le_antisymm (by omega) ?_
  refine (Finset.le_fold_min _).2 ⟨?_, fun p hp => ?_⟩
  · have := hv.2.2 0 hv.2.1 0 hv.1
    omega
  · obtain ⟨h1, h2⟩ := mem_pixPos.1 hp
    rw [hc p.1 h1 p.2 h2]

theorem round_nonneg {q : ℚ} (h : 0 ≤ q) : 0 ≤ round q := by
  rw [round_eq]
  exact Int.le_floor.2 (by push_cast; linarith)

/-- C1: for every valid Image, the histogram-equalization step of the
arterial transform remaps each pixel value `v` to
`round((cdf(v) - cdf_min) / (total_pixels - cdf_min) * 255)`, where `cdf`
is the cumulative distribution of the 256-bin intensity histogram and
`cdf_min` is the smallest nonzero cumulative count (stated for the
non-degenerate case where that quotient is well defined; the uniform
image edge case is the subject of C6). -/
theorem C1_equalize_remap (img : Image) (hv : Valid img) (m : ℕ)
    (hmem : m ∈ cdfSet img) (hleast : ∀ c ∈ cdfSet img, m ≤ c)
    (hnu : m ≠ total img) :
    ∀ y < img.height, ∀ x < img.width,
      ((equalize img).pix y x : ℤ) =
        round ((((cdf img (img.pix y x) : ℚ) - (m : ℚ)) /
          ((total img : ℚ) - (m : ℚ))) * 255) := by
  have hL := cdfMin_isLeast hv
  have hm : m = cdfMin img := le_antisymm (hleast _ hL.1) (hL.2 m hmem)
  subst hm
  intro y hy x hx
  simp only [equalize]
  rw [if_neg hnu]
  have hpos : 0 < cdf img (img.pix y x) := cdf_pos_of_pix_le hy hx le_rfl
  have h1 : cdfMin img ≤ cdf img (img.pix y x) := cdfMin_le_of_cdf_pos img hpos
  have h2 : cdfMin img < total img :=
    lt_of_le_of_ne (cdfMin_le_total img) hnu
  have hnum : (0 : ℚ) ≤ (cdf img (img.pix y x) : ℚ) - (cdfMin img : ℚ) := by
    have : ((cdfMin img : ℚ)) ≤ (cdf img (img.pix y x) : ℚ) := by exact_mod_cast h1
    linarith
  have hden : (0 : ℚ) < (total img : ℚ) - (cdfMin img : ℚ) := by
    have : ((cdfMin img : ℚ)) < (total img : ℚ) := by exact_mod_cast h2
    linarith
  exact Int.toNat_of_nonneg (round_nonneg (by positivity))

/-- C1 witness: the formula evaluated on the concrete 1-by-2 image, whose
smallest nonzero cumulative count is 1. -/
theorem C1_witness :
    ((equalize imgTwo).pix 0 1 : ℤ) =
      round ((((cdf imgTwo (imgTwo.pix 0 1) : ℚ) - ((1 : ℕ) : ℚ)) /
        ((total imgTwo : ℚ) - ((1 : ℕ) : ℚ))) * 255) :=
  C1_equalize_remap imgTwo (by decide) 1 (by decide) (by decide) (by decide)
    0 (by decide) 1 (by decide)

/-- C6: for every uniform-intensity Image (all pixels equal to a constant
`c`), histogram equalization is the identity map: every output pixel
equals `c` (the division by zero is avoided by the uniform branch). -/
theorem C6_equalize_uniform_identity (img : Image) (c : ℕ) (hv : Valid img)
    (hc : ∀ y < img.height, ∀ x < img.width, img.pix y x = c) :
    ∀ y < img.height, ∀ x < img.width, (equalize img).pix y x = c := by
  have hmin : imgMin img = c := imgMin_eq_of_uniform hv hc
  have hguard : cdfMin img = total img := by
    unfold cdfMin
    rw [hmin]
    exact cdf_eq_total_of_uniform hc le_rfl
  intro y hy x hx
  simp only [equalize]
  rw [if_pos hguard]
  exact hc y hy x hx

/-- C6 witness: equalization leaves the uniform 2-by-2 image of intensity
7 unchanged at a sample position. -/
theorem C6_witness : (equalize imgUniform).pix 1 1 = 7 :=
  C6_equalize_uniform_identity imgUniform 7 (by decide) (by decide)
    1 (by decide) 1 (by decide)

/-! ### The lossless container codec -/

theorem rowcol_idx_lt {img : Image} {y x : ℕ}
    (hy : y < img.height) (hx : x < img.width) :
    y * img.width + x < img.height * img.width := by
  have h1 : y * img.width + x < (y + 1) * img.width := by
    rw [add_mul, one_mul]
    omega
  have h2 : (y + 1) * img.width ≤ img.height * img.width :=
    Nat.mul_le_mul_right _ hy
  omega

theorem decoded_pix {img : Image} (hw : 0 < img.width) {y x : ℕ}
    (hy : y < img.height) (hx : x < img.width) :
    ((List.range (img.height * img.width)).map
      (fun i => img.pix (i / img.width) (i % img.width))).getD
      (y * img.width + x) 0 = img.pix y x := by
  have hidx := rowcol_idx_lt hy hx
  rw [List.getD_eq_getElem?_getD, List.getElem?_map, List.getElem?_range hidx]
  have hdiv : (y * img.width + x) / img.width = y := by
    rw [Nat.add_comm, Nat.add_mul_div_right _ _ hw, Nat.div_eq_of_lt hx]
    omega
  have hmod : (y * img.width + x) % img.width = x := by
    rw [Nat.add_comm, Nat.add_mul_mod_self_right]
    exact Nat.mod_eq_of_lt hx
  simp [hdiv, hmod]

theorem load_to_png {img : Image} (hv : Valid img) :
    load_image (to_png_bytes img) = .ok (decodedOf img) := by
  obtain ⟨hw, hh, hb⟩ := hv
  simp only [to_png_bytes, load_image]
  rw [if_pos]
  · rfl
  · refine ⟨by trivial, by trivial, by trivial, hw, hh, by simp, fun p hp => ?_⟩
    simp only [List.mem_map, List.mem_range] at hp
    obtain ⟨i, hi, rfl⟩ := hp
    exact hb _ ((Nat.div_lt_iff_lt_mul hw).2 hi) _ (Nat.mod_lt _ hw)

theorem decode_encode (img : Image) (hv : Valid img) :
    load_image (to_png_bytes img) = .ok (decodedOf img) ∧
      sameImage (decodedOf img) img ∧
      to_png_bytes (decodedOf img) = to_png_bytes img := by
  refine ⟨load_to_png hv, ⟨rfl, rfl, fun y hy x hx => ?_⟩, ?_⟩
  · show (if y < img.height ∧ x < img.width then _ else 0) = img.pix y x
    rw [if_pos ⟨hy, hx⟩]
    exact decoded_pix hv.1 hy hx
  · show (80 :: 78 :: 71 :: img.width :: img.height :: _ : List ℕ) = _
    refine congrArg (fun l : List ℕ =>
      80 :: 78 :: 71 :: img.width :: img.height :: l) ?_
    refine List.map_congr_left fun i hi => ?_
    have hi2 : i < img.height * img.width := List.mem_range.1 hi
    have hdy : i / img.width < img.height := (Nat.div_lt_iff_lt_mul hv.1).2 hi2
    have hdx : i % img.width < img.width := Nat.mod_lt _ hv.1
    show (if _ ∧ _ then _ else 0) = _
    rw [if_pos ⟨hdy, hdx⟩]
    exact decoded_pix hv.1 hdy hdx

/-- C3: encoding is a lossless round trip: decoding the encoder's output
yields an Image with bit-identical pixel values, and therefore re-encoding
the decoded image reproduces the encoded bytes exactly. -/
theorem C3_lossless_roundtrip (img : Image) (hv : Valid img) :
    (∃ img2, load_image (to_png_bytes img) = .ok img2 ∧ sameImage img2 img) ∧
      ∀ img2, load_image (to_png_bytes img) = .ok img2 →
        to_png_bytes img2 = to_png_bytes img := by
  obtain ⟨h1, h2, h3⟩ := decode_encode img hv
  refine ⟨⟨decodedOf img, h1, h2⟩, fun img2 h => ?_⟩
  rw [h1] at h
  injection h with h
  rw [← h]
  exact h3

/-- C3 witness: the round trip on the concrete 1-by-2 image. -/
theorem C3_witness :
    (∃ img2, load_image (to_png_bytes imgTwo) = .ok img2 ∧ sameImage img2 imgTwo) ∧
      ∀ img2, load_image (to_png_bytes imgTwo) = .ok img2 →
        to_png_bytes img2 = to_png_bytes imgTwo :=
  C3_lossless_roundtrip imgTwo (by decide)

/-- C5: the decoder fails with `DecodeError` on empty input, and it
succeeds exactly on the well-formed encodings: `load_image b` returns an
image precisely when `b` is the encoding of some valid image (the decoder
is a pure function, so it has no side effects). -/
theorem C5_decode_error_iff :
    load_image ([] : List ℕ) = .error .invalid ∧
      ∀ b : List ℕ, (∃ img, load_image b = .ok img) ↔
        ∃ img, Valid img ∧ to_png_bytes img = b := by
  refine ⟨rfl, fun b => ⟨?_, ?_⟩⟩
  · rintro ⟨img, himg⟩
    rcases b with _ | ⟨sp, b⟩
    · simp [load_image] at himg
    rcases b with _ | ⟨sn, b⟩
    · simp [load_image] at himg
    rcases b with _ | ⟨sg, b⟩
    · simp [load_image] at himg
    rcases b with _ | ⟨w, b⟩
    · simp [load_image] at himg
    rcases b with _ | ⟨h, data⟩
    · simp [load_image] at himg
    simp only [load_image] at himg
    split at himg
    case isFalse => simp at himg
    case isTrue hcond =>
      obtain ⟨hsp, hsn, hsg, hw, hh, hlen, hbound⟩ := hcond
      subst hsp hsn hsg
      injection himg with himg
      subst himg
      refine ⟨⟨w, h, fun y x => if y < h ∧ x < w then data.getD (y * w + x) 0 else 0⟩,
        ⟨hw, hh, fun y hy x hx => ?_⟩, ?_⟩
      · show (if y < h ∧ x < w then data.getD (y * w + x) 0 else 0) ≤ 255
        rw [if_pos ⟨hy, hx⟩]
        have hidx : y * w + x < data.length := by
          rw [hlen]
          exact @rowcol_idx_lt ⟨w, h, fun _ _ => 0⟩ y x hy hx
        rw [List.getD_eq_getElem?_getD, List.getElem?_eq_getElem hidx]
        exact hbound _ (List.getElem_mem hidx)
      · show (80 :: 78 :: 71 :: w :: h :: _ : List ℕ) = _
        refine congrArg (fun l : List ℕ => 80 :: 78 :: 71 :: w :: h :: l) ?_
        refine List.ext_getElem (by simpa using hlen.symm) fun i h1 h2 => ?_
        simp only [List.getElem_map, List.getElem_range, List.length_map,
          List.length_range] at h1 ⊢
        have hdy : i / w < h := (Nat.div_lt_iff_lt_mul hw).2 h1
        have hdx : i % w < w := Nat.mod_lt _ hw
        show (if i / w < h ∧ i % w < w then data.getD (i / w * w + i % w) 0 else 0) = _
        rw [if_pos ⟨hdy, hdx⟩]
        have hsplit : i / w * w + i % w = i := by
          rw [mul_comm]
          exact Nat.div_add_mod i w
        rw [hsplit, List.getD_eq_getElem?_getD, List.getElem?_eq_getElem (hlen ▸ h1)]
        rfl
  · rintro ⟨img, hv, rfl⟩
    exact ⟨decodedOf img, (decode_encode img hv).1⟩

/-- C5 witness: the decoder rejects empty input and accepts the encoding
of the concrete 1-by-2 image. -/
theorem C5_witness :
    load_image ([] : List ℕ) = .error .invalid ∧
      ∃ img, load_image (to_png_bytes imgTwo) = .ok img :=
  ⟨C5_decode_error_iff.1,
    (C5_decode_error_iff.2 (to_png_bytes imgTwo)).2 ⟨imgTwo, by decide, rfl⟩⟩

/-! ### Pipeline and HTTP wrapper claims -/

/-- C9: for every single-pixel (1-by-1) valid Image, the full pipeline
(decode, transform, encode) completes with a successful result for both
the arterial and the venous phase; in the model every stage is total, so
success of the decoder is the only failure point and no division by zero
or out-of-bounds access occurs. -/
theorem C9_single_pixel_pipeline (c : ℕ) (hc : c ≤ 255) :
    (∃ outA, run_pipeline (to_png_bytes (unitImg c)) .arterial = .ok outA) ∧
      ∃ outV, run_pipeline (to_png_bytes (unitImg c)) .venous = .ok outV := by
  have hv : Valid (unitImg c) := ⟨one_pos, one_pos, fun y _ x _ => hc⟩
  have h1 := (decode_encode _ hv).1
  unfold run_pipeline
  rw [h1]
  exact ⟨⟨_, rfl⟩, ⟨_, rfl⟩⟩

/-- C9 witness: the pipeline succeeds on the 1-by-1 image of intensity 7
for both phases. -/
theorem C9_witness :
    (∃ outA, run_pipeline (to_png_bytes (unitImg 7)) .arterial = .ok outA) ∧
      ∃ outV, run_pipeline (to_png_bytes (unitImg 7)) .venous = .ok outV :=
  C9_single_pixel_pipeline 7 (by decide)

/-- C10: in the HTTP wrapper, the 400 response is decided solely by the
declared content type (everything outside the allowed set is rejected,
whatever the body); with an accepted content type the response is never
400, and every decode failure — including empty bytes — maps to the 500
catch-all. -/
theorem C10_http_status (ct : String) (body : List ℕ) (ph : Phase) :
    (process_image ct body ph = .badRequest ↔ ct ∉ allowedTypes) ∧
      (ct ∈ allowedTypes → ∀ e, load_image body = .error e →
        process_image ct body ph = .serverError) := by
  constructor
  · constructor
    · intro h hmem
      unfold process_image at h
      rw [if_pos hmem] at h
      cases hrp : run_pipeline body ph with
      | ok png => rw [hrp] at h; exact ApiResponse.noConfusion h
      | error e => rw [hrp] at h; exact ApiResponse.noConfusion h
    · intro hnot
      unfold process_image
      rw [if_neg hnot]
  · intro hmem e herr
    unfold process_image run_pipeline
    rw [if_pos hmem, herr]
    rfl

/-- C10 witness: a disallowed content type yields 400 whatever the body;
an allowed content type with an empty (undecodable) body yields 500. -/
theorem C10_witness :
    process_image "text/plain" [] Phase.arterial = .badRequest ∧
      process_image "image/png" [] Phase.arterial = .serverError :=
  ⟨(C10_http_status "text/plain" [] .arterial).1.2 (by decide),
    (C10_http_status "image/png" [] .arterial).2 (by decide) .invalid rfl⟩

/-- C2: the arterial transform is exactly the composition, in order, of
histogram equalization, unsharp masking (radius 2, percent 125,
threshold 3, applied only where the difference from the blur reaches the
threshold), and brightness scaling by 1.05 followed by contrast scaling
by 1.35 around the mean of the brightness-scaled image — each step
consuming the previous step's full output. -/
theorem C2_arterial_composition (img : Image) (_hv : Valid img) :
    (simulate_arterial img).width = img.width ∧
      (simulate_arterial img).height = img.height ∧
      ∀ y < img.height, ∀ x < img.width,
        (simulate_arterial img).pix y x = specArterialPix img y x := by
  exact ⟨rfl, rfl, fun y _ x _ => rfl⟩

/-- C2 witness: the decomposition instantiated on the concrete 1-by-2
image. -/
theorem C2_witness :
    (simulate_arterial imgTwo).width = imgTwo.width ∧
      (simulate_arterial imgTwo).height = imgTwo.height ∧
      ∀ y < imgTwo.height, ∀ x < imgTwo.width,
        (simulate_arterial imgTwo).pix y x = specArterialPix imgTwo y x :=
  C2_arterial_composition imgTwo (by decide)

/-! ### Preservation of the Image invariant (C4) -/

theorem round_le_255 {q : ℚ} (h : q ≤ 255) : round q ≤ 255 := by
  rw [round_eq]
  have h1 : q + 1 / 2 ≤ 255 + 1 / 2 := by linarith
  have h2 := Int.floor_le_floor h1
  have h3 : (⌊(255 : ℚ) + 1 / 2⌋ : ℤ) = 255 := by
    rw [Int.floor_eq_iff]
    constructor <;> norm_num
  omega

theorem clampIdx_lt {n : ℕ} (hn : 0 < n) (z : ℤ) : clampIdx n z < n := by
  unfold clampIdx
  have h1 : min z ((n : ℤ) - 1) ≤ (n : ℤ) - 1 := min_le_right _ _
  omega

theorem gaussK_nonneg (k : ℤ) : 0 ≤ gaussK k := by
  unfold gaussK
  split_ifs <;> norm_num

theorem gaussK_sum : ∑ k ∈ Finset.Icc (-2 : ℤ) 2, gaussK k = 1 := by
  with_unfolding_all decide

theorem gaussK_abs_moment :
    ∑ k ∈ Finset.Icc (-2 : ℤ) 2, gaussK k * ((|k| : ℤ) : ℚ) ≤ 2 := by
  with_unfolding_all decide

theorem blur1_nonneg {n : ℕ} (hn : 0 < n) {g : ℕ → ℚ}
    (hg : ∀ i < n, 0 ≤ g i) (x : ℕ) : 0 ≤ blur1 n g x :=
  Finset.sum_nonneg fun k _ =>
    mul_nonneg (gaussK_nonneg k) (hg _ (clampIdx_lt hn _))

theorem blur1_le_255 {n : ℕ} (hn : 0 < n) {g : ℕ → ℚ}
    (hg : ∀ i < n, g i ≤ 255) (x : ℕ) : blur1 n g x ≤ 255 := by
  calc blur1 n g x ≤ ∑ k ∈ Finset.Icc (-2 : ℤ) 2, gaussK k * 255 :=
        Finset.sum_le_sum fun k _ =>
          mul_le_mul_of_nonneg_left (hg _ (clampIdx_lt hn _)) (gaussK_nonneg k)
    _ = 255 := by rw [← Finset.sum_mul, gaussK_sum, one_mul]

theorem gaussBlurQ_nonneg {img : Image} (hv : Valid img) (y x : ℕ) :
    0 ≤ gaussBlurQ img y x := by
  unfold gaussBlurQ
  refine blur1_nonneg hv.2.1 (fun y2 _ => ?_) y
  exact blur1_nonneg hv.1 (fun x2 _ => Nat.cast_nonneg _) x

theorem gaussBlurQ_le_255 {img : Image} (hv : Valid img) (y x : ℕ) :
    gaussBlurQ img y x ≤ 255 := by
  unfold gaussBlurQ
  refine blur1_le_255 hv.2.1 (fun y2 hy2 => ?_) y
  refine blur1_le_255 hv.1 (fun x2 hx2 => ?_) x
  exact_mod_cast hv.2.2 y2 hy2 x2 hx2

theorem equalize_valid {img : Image} (hv : Valid img) : Valid (equalize img) := by
  refine ⟨hv.1, hv.2.1, fun y hy x hx => ?_⟩
  show (if cdfMin img = total img then img.pix y x else _) ≤ 255
  split
  case isTrue => exact hv.2.2 y hy x hx
  case isFalse hne =>
    have h2 : cdfMin img < total img := lt_of_le_of_ne (cdfMin_le_total img) hne
    have hden : (0 : ℚ) < (total img : ℚ) - (cdfMin img : ℚ) := by
      have : ((cdfMin img : ℚ)) < (total img : ℚ) := by exact_mod_cast h2
      linarith
    have hnum : (cdf img (img.pix y x) : ℚ) - (cdfMin img : ℚ) ≤
        (total img : ℚ) - (cdfMin img : ℚ) := by
      have : ((cdf img (img.pix y x) : ℚ)) ≤ (total img : ℚ) := by
        exact_mod_cast cdf_le_total img (img.pix y x)
      linarith
    have hq : (((cdf img (img.pix y x) : ℚ) - (cdfMin img : ℚ)) /
        ((total img : ℚ) - (cdfMin img : ℚ))) * 255 ≤ 255 := by
      have hd1 : (((cdf img (img.pix y x) : ℚ) - (cdfMin img : ℚ)) /
          ((total img : ℚ) - (cdfMin img : ℚ))) ≤ 1 := (div_le_one hden).2 hnum
      nlinarith
    have := round_le_255 hq
    omega

theorem unsharp_valid {img : Image} (hv : Valid img) (percent threshold : ℕ) :
    Valid (unsharpMask percent threshold img) := by
  refine ⟨hv.1, hv.2.1, fun y hy x hx => ?_⟩
  show (if _ then clamp255 _ else img.pix y x) ≤ 255
  split
  · exact clamp255_le _
  · exact hv.2.2 y hy x hx

theorem brightness_valid {img : Image} (hv : Valid img) (f : ℚ) :
    Valid (brightnessEnhance f img) :=
  ⟨hv.1, hv.2.1, fun _ _ _ _ => clamp255_le _⟩

theorem contrast_valid {img : Image} (hv : Valid img) (f : ℚ) :
    Valid (contrastEnhance f img) :=
  ⟨hv.1, hv.2.1, fun _ _ _ _ => clamp255_le _⟩

theorem venous_valid {img : Image} (hv : Valid img) : Valid (simulate_venous img) := by
  refine ⟨hv.1, hv.2.1, fun y hy x hx => ?_⟩
  show (round (gaussBlurQ img y x)).toNat ≤ 255
  have h1 := round_le_255 (gaussBlurQ_le_255 hv y x)
  omega

/-- C4: for every valid Image, both the arterial and the venous transform
return an Image with the same width, the same height, and samples again
in the 8-bit range, so the Image invariant is preserved by every pipeline
stage. -/
theorem C4_transforms_preserve_invariant (img : Image) (hv : Valid img) :
    (simulate_arterial img).width = img.width ∧
      (simulate_arterial img).height = img.height ∧
      (simulate_venous img).width = img.width ∧
      (simulate_venous img).height = img.height ∧
      Valid (simulate_arterial img) ∧ Valid (simulate_venous img) := by
  refine ⟨rfl, rfl, rfl, rfl, ?_, venous_valid hv⟩
  exact contrast_valid (brightness_valid (unsharp_valid (equalize_valid hv) 125 3) _) _

/-- C4 witness: invariant preservation instantiated on the concrete
1-by-2 image. -/
theorem C4_witness :
    (simulate_arterial imgTwo).width = imgTwo.width ∧
      (simulate_arterial imgTwo).height = imgTwo.height ∧
      (simulate_venous imgTwo).width = imgTwo.width ∧
      (simulate_venous imgTwo).height = imgTwo.height ∧
      Valid (simulate_arterial imgTwo) ∧ Valid (simulate_venous imgTwo) :=
  C4_transforms_preserve_invariant imgTwo (by decide)

/-! ### Mean preservation of the Gaussian blur (C7) -/

theorem clampIdx_coe {n x : ℕ} (hx : x < n) : clampIdx n (x : ℤ) = x := by
  unfold clampIdx
  omega

theorem shiftSum_succ (n : ℕ) (g : ℕ → ℚ) (k : ℤ) :
    shiftSum n g (k + 1) =
      shiftSum n g k + g (clampIdx n ((n : ℤ) + k)) - g (clampIdx n k) := by
  unfold shiftSum
  have key : ∀ x : ℕ, g (clampIdx n ((x : ℤ) + (k + 1))) =
      (fun i : ℕ => g (clampIdx n ((i : ℤ) + k))) (x + 1) := by
    intro x
    have : ((x : ℤ) + (k + 1)) = (((x + 1 : ℕ) : ℤ) + k) := by push_cast; ring
    simp only [this]
  rw [Finset.sum_congr rfl fun x _ => key x]
  have h1 := Finset.sum_range_succ' (fun i : ℕ => g (clampIdx n ((i : ℤ) + k))) n
  have h2 := Finset.sum_range_succ (fun i : ℕ => g (clampIdx n ((i : ℤ) + k))) n
  simp only [Nat.cast_zero, zero_add] at h1
  linarith

theorem clamped_pair_bound {n : ℕ} (hn : 0 < n) {g : ℕ → ℚ}
    (hg : ∀ i < n, 0 ≤ g i ∧ g i ≤ 255) (a b : ℤ) :
    |g (clampIdx n a) - g (clampIdx n b)| ≤ 255 := by
  obtain ⟨h1, h2⟩ := hg _ (clampIdx_lt hn a)
  obtain ⟨h3, h4⟩ := hg _ (clampIdx_lt hn b)
  rw [abs_le]
  constructor <;> linarith

theorem shiftSum_bound {n : ℕ} (hn : 0 < n) {g : ℕ → ℚ}
    (hg : ∀ i < n, 0 ≤ g i ∧ g i ≤ 255) (k : ℤ) :
    |shiftSum n g k - shiftSum n g 0| ≤ 255 * ((|k| : ℤ) : ℚ) := by
  induction k using Int.induction_on with
  | hz => simp
  | hp i ih =>
    have hs := shiftSum_succ n g i
    have hd := clamped_pair_bound hn hg ((n : ℤ) + i) i
    have habs : ((|(i : ℤ) + 1| : ℤ) : ℚ) = ((|(i : ℤ)| : ℤ) : ℚ) + 1 := by
      have e1 : |(i : ℤ) + 1| = (i : ℤ) + 1 := abs_of_nonneg (by positivity)
      have e2 : |(i : ℤ)| = (i : ℤ) := abs_of_nonneg (by positivity)
      rw [e1, e2]
      push_cast
      ring
    rw [habs]
    calc |shiftSum n g ((i : ℤ) + 1) - shiftSum n g 0|
        = |(shiftSum n g i - shiftSum n g 0) +
            (g (clampIdx n ((n : ℤ) + i)) - g (clampIdx n i))| := by
          rw [hs]; ring_nf
      _ ≤ |shiftSum n g i - shiftSum n g 0| +
            |g (clampIdx n ((n : ℤ) + i)) - g (clampIdx n i)| := abs_add _ _
      _ ≤ 255 * ((|(i : ℤ)| : ℤ) : ℚ) + 255 := add_le_add ih hd
      _ = 255 * (((|(i : ℤ)| : ℤ) : ℚ) + 1) := by ring
  | hn i ih =>
    have hs := shiftSum_succ n g (-(i : ℤ) - 1)
    have hd := clamped_pair_bound hn hg ((n : ℤ) + (-(i : ℤ) - 1)) (-(i : ℤ) - 1)
    have hstep : shiftSum n g (-(i : ℤ) - 1) =
        shiftSum n g (-(i : ℤ)) - g (clampIdx n ((n : ℤ) + (-(i : ℤ) - 1))) +
          g (clampIdx n (-(i : ℤ) - 1)) := by
      have : (-(i : ℤ) - 1 + 1) = -(i : ℤ) := by ring
      rw [this] at hs
      linarith
    have habs : ((|-(i : ℤ) - 1| : ℤ) : ℚ) = ((|(-(i : ℤ))| : ℤ) : ℚ) + 1 := by
      have e1 : |-(i : ℤ) - 1| = (i : ℤ) + 1 := by
        rw [abs_of_nonpos (by omega)]
        ring
      have e2 : |(-(i : ℤ))| = (i : ℤ) := by
        rw [abs_of_nonpos (by omega)]
        ring
      rw [e1, e2]
      push_cast
      ring
    rw [habs]
    calc |shiftSum n g (-(i : ℤ) - 1) - shiftSum n g 0|
        = |(shiftSum n g (-(i : ℤ)) - shiftSum n g 0) -
            (g (clampIdx n ((n : ℤ) + (-(i : ℤ) - 1))) -
              g (clampIdx n (-(i : ℤ) - 1)))| := by
          rw [hstep]; ring_nf
      _ ≤ |shiftSum n g (-(i : ℤ)) - shiftSum n g 0| +
            |g (clampIdx n ((n : ℤ) + (-(i : ℤ) - 1))) -
              g (clampIdx n (-(i : ℤ) - 1))| := abs_sub _ _
      _ ≤ 255 * ((|(-(i : ℤ))| : ℤ) : ℚ) + 255 := add_le_add ih hd
      _ = 255 * (((|(-(i : ℤ))| : ℤ) : ℚ) + 1) := by ring

/-- One blur pass changes the total intensity of a line by at most 510
(two border columns, each off by at most 255). -/
theorem blur1_sum_bound {n : ℕ} (hn : 0 < n) {g : ℕ → ℚ}
    (hg : ∀ i < n, 0 ≤ g i ∧ g i ≤ 255) :
    |(∑ x ∈ Finset.range n, blur1 n g x) - ∑ x ∈ Finset.range n, g x| ≤ 510 := by
  have hS0 : shiftSum n g 0 = ∑ x ∈ Finset.range n, g x := by
    unfold shiftSum
    refine Finset.sum_congr rfl fun x hx => ?_
    rw [add_zero, clampIdx_coe (Finset.mem_range.1 hx)]
  have hA : ∑ x ∈ Finset.range n, blur1 n g x =
      ∑ k ∈ Finset.Icc (-2 : ℤ) 2, gaussK k * shiftSum n g k := by
    unfold blur1 shiftSum
    rw [Finset.sum_comm]
    exact Finset.sum_congr rfl fun k _ => (Finset.mul_sum _ _ _).symm
  have hB : ∑ x ∈ Finset.range n, g x =
      ∑ k ∈ Finset.Icc (-2 : ℤ) 2, gaussK k * shiftSum n g 0 := by
    calc ∑ x ∈ Finset.range n, g x = shiftSum n g 0 := hS0.symm
      _ = (∑ k ∈ Finset.Icc (-2 : ℤ) 2, gaussK k) * shiftSum n g 0 := by
          rw [gaussK_sum, one_mul]
      _ = ∑ k ∈ Finset.Icc (-2 : ℤ) 2, gaussK k * shiftSum n g 0 :=
          Finset.sum_mul _ _ _
  rw [hA, hB, ← Finset.sum_sub_distrib]
  calc |∑ k ∈ Finset.Icc (-2 : ℤ) 2,
          (gaussK k * shiftSum n g k - gaussK k * shiftSum n g 0)|
      ≤ ∑ k ∈ Finset.Icc (-2 : ℤ) 2,
          |gaussK k * shiftSum n g k - gaussK k * shiftSum n g 0| :=
        Finset.abs_sum_le_sum_abs _ _
    _ ≤ ∑ k ∈ Finset.Icc (-2 : ℤ) 2, gaussK k * (255 * ((|k| : ℤ) : ℚ)) := by
        refine Finset.sum_le_sum fun k _ => ?_
        rw [← mul_sub, abs_mul, abs_of_nonneg (gaussK_nonneg k)]
        exact mul_le_mul_of_nonneg_left (shiftSum_bound hn hg k) (gaussK_nonneg k)
    _ = 255 * ∑ k ∈ Finset.Icc (-2 : ℤ) 2, gaussK k * ((|k| : ℤ) : ℚ) := by
        rw [Finset.mul_sum]
        exact Finset.sum_congr rfl fun k _ => by ring
    _ ≤ 255 * 2 := by
        refine mul_le_mul_of_nonneg_left ?_ (by norm_num)
        exact gaussK_abs_moment
    _ = 510 := by norm_num

theorem gaussBlurQ_eq (img : Image) (y x : ℕ) :
    gaussBlurQ img y x = blur1 img.height (fun y2 => blurH img y2 x) y := rfl

theorem blurH_bounds {img : Image} (hv : Valid img) :
    ∀ y < img.height, ∀ x < img.width, 0 ≤ blurH img y x ∧ blurH img y x ≤ 255 := by
  intro y hy x _
  constructor
  · exact blur1_nonneg hv.1 (fun i _ => Nat.cast_nonneg _) x
  · exact blur1_le_255 hv.1 (fun i hi => by exact_mod_cast hv.2.2 y hy i hi) x

/-- Total deviation of the venous output from the input, before averaging:
510 per row for the horizontal pass, 510 per column for the vertical pass,
and half an intensity level per pixel for the final rounding. -/
theorem venous_sum_dev (img : Image) (hv : Valid img) :
    |(∑ p ∈ pixPos img, ((simulate_venous img).pix p.1 p.2 : ℚ)) -
        ∑ p ∈ pixPos img, (img.pix p.1 p.2 : ℚ)| ≤
      510 * (img.height : ℚ) + 510 * (img.width : ℚ) +
        (img.height : ℚ) * (img.width : ℚ) / 2 := by
  obtain ⟨hw, hh, hb⟩ := hv
  have hv2 : Valid img := ⟨hw, hh, hb⟩
  have hf0 : ∀ y < img.height, ∀ x < img.width,
      0 ≤ ((img.pix y x : ℚ)) ∧ ((img.pix y x : ℚ)) ≤ 255 := by
    intro y hy x hx
    exact ⟨Nat.cast_nonneg _, by exact_mod_cast hb y hy x hx⟩
  have hH := blurH_bounds hv2
  -- the three partial sums
  have e2 : ∑ p ∈ pixPos img, ((simulate_venous img).pix p.1 p.2 : ℚ) =
      ∑ y ∈ Finset.range img.height, ∑ x ∈ Finset.range img.width,
        ((simulate_venous img).pix y x : ℚ) := Finset.sum_product _ _ _
  have e0 : ∑ p ∈ pixPos img, (img.pix p.1 p.2 : ℚ) =
      ∑ y ∈ Finset.range img.height, ∑ x ∈ Finset.range img.width,
        (img.pix y x : ℚ) := Finset.sum_product _ _ _
  rw [e2, e0]
  -- step A: horizontal pass, per row
  have hA : |(∑ y ∈ Finset.range img.height, ∑ x ∈ Finset.range img.width,
        blurH img y x) -
      ∑ y ∈ Finset.range img.height, ∑ x ∈ Finset.range img.width,
        (img.pix y x : ℚ)| ≤ 510 * (img.height : ℚ) := by
    rw [← Finset.sum_sub_distrib]
    calc |∑ y ∈ Finset.range img.height,
            ((∑ x ∈ Finset.range img.width, blurH img y x) -
              ∑ x ∈ Finset.range img.width, (img.pix y x : ℚ))|
        ≤ ∑ y ∈ Finset.range img.height,
            |(∑ x ∈ Finset.range img.width, blurH img y x) -
              ∑ x ∈ Finset.range img.width, (img.pix y x : ℚ)| :=
          Finset.abs_sum_le_sum_abs _ _
      _ ≤ ∑ y ∈ Finset.range img.height, (510 : ℚ) := by
          refine Finset.sum_le_sum fun y hy => ?_
          exact blur1_sum_bound hw fun i hi => hf0 y (Finset.mem_range.1 hy) i hi
      _ = 510 * (img.height : ℚ) := by
          rw [Finset.sum_const, Finset.card_range, nsmul_eq_mul]
          ring
  -- step B: vertical pass, per column
  have hB : |(∑ y ∈ Finset.range img.height, ∑ x ∈ Finset.range img.width,
        gaussBlurQ img y x) -
      ∑ y ∈ Finset.range img.height, ∑ x ∈ Finset.range img.width,
        blurH img y x| ≤ 510 * (img.width : ℚ) := by
    have c1 : ∑ y ∈ Finset.range img.height, ∑ x ∈ Finset.range img.width,
        gaussBlurQ img y x = ∑ x ∈ Finset.range img.width,
        ∑ y ∈ Finset.range img.height, gaussBlurQ img y x := Finset.sum_comm
    have c2 : ∑ y ∈ Finset.range img.height, ∑ x ∈ Finset.range img.width,
        blurH img y x = ∑ x ∈ Finset.range img.width,
        ∑ y ∈ Finset.range img.height, blurH img y x := Finset.sum_comm
    rw [c1, c2, ← Finset.sum_sub_distrib]
    calc |∑ x ∈ Finset.range img.width,
            ((∑ y ∈ Finset.range img.height, gaussBlurQ img y x) -
              ∑ y ∈ Finset.range img.height, blurH img y x)|
        ≤ ∑ x ∈ Finset.range img.width,
            |(∑ y ∈ Finset.range img.height, gaussBlurQ img y x) -
              ∑ y ∈ Finset.range img.height, blurH img y x| :=
          Finset.abs_sum_le_sum_abs _ _
      _ ≤ ∑ x ∈ Finset.range img.width, (510 : ℚ) := by
          refine Finset.sum_le_sum fun x hx => ?_
          have hcol : ∀ y < img.height,
              0 ≤ blurH img y x ∧ blurH img y x ≤ 255 :=
            fun y hy => hH y hy x (Finset.mem_range.1 hx)
          exact blur1_sum_bound hh hcol
      _ = 510 * (img.width : ℚ) := by
          rw [Finset.sum_const, Finset.card_range, nsmul_eq_mul]
          ring
  -- step C: rounding, per pixel
  have hC : |(∑ y ∈ Finset.range img.height, ∑ x ∈ Finset.range img.width,
        ((simulate_venous img).pix y x : ℚ)) -
      ∑ y ∈ Finset.range img.height, ∑ x ∈ Finset.range img.width,
        gaussBlurQ img y x| ≤
      (img.height : ℚ) * (img.width : ℚ) / 2 := by
    have hpix : ∀ y < img.height, ∀ x < img.width,
        |((simulate_venous img).pix y x : ℚ) - gaussBlurQ img y x| ≤ 1 / 2 := by
      intro y hy x hx
      have hq0 : 0 ≤ gaussBlurQ img y x := gaussBlurQ_nonneg hv2 y x
      have hcast : (((simulate_venous img).pix y x : ℕ) : ℚ) =
          ((round (gaussBlurQ img y x) : ℤ) : ℚ) := by
        show (((round (gaussBlurQ img y x)).toNat : ℕ) : ℚ) = _
        rw [← Int.cast_natCast, Int.toNat_of_nonneg (round_nonneg hq0)]
      rw [hcast, abs_sub_comm]
      exact abs_sub_round (gaussBlurQ img y x)
    rw [← Finset.sum_sub_distrib]
    calc |∑ y ∈ Finset.range img.height,
            ((∑ x ∈ Finset.range img.width, ((simulate_venous img).pix y x : ℚ)) -
              ∑ x ∈ Finset.range img.width, gaussBlurQ img y x)|
        ≤ ∑ y ∈ Finset.range img.height,
            |(∑ x ∈ Finset.range img.width, ((simulate_venous img).pix y x : ℚ)) -
              ∑ x ∈ Finset.range img.width, gaussBlurQ img y x| :=
          Finset.abs_sum_le_sum_abs _ _
      _ ≤ ∑ y ∈ Finset.range img.height, (img.width : ℚ) * (1 / 2) := by
          refine Finset.sum_le_sum fun y hy => ?_
          rw [← Finset.sum_sub_distrib]
          calc |∑ x ∈ Finset.range img.width,
                  (((simulate_venous img).pix y x : ℚ) - gaussBlurQ img y x)|
              ≤ ∑ x ∈ Finset.range img.width,
                  |((simulate_venous img).pix y x : ℚ) - gaussBlurQ img y x| :=
                Finset.abs_sum_le_sum_abs _ _
            _ ≤ ∑ x ∈ Finset.range img.width, (1 / 2 : ℚ) :=
                Finset.sum_le_sum fun x hx =>
                  hpix y (Finset.mem_range.1 hy) x (Finset.mem_range.1 hx)
            _ = (img.width : ℚ) * (1 / 2) := by
                rw [Finset.sum_const, Finset.card_range, nsmul_eq_mul]
      _ = (img.height : ℚ) * (img.width : ℚ) / 2 := by
          rw [Finset.sum_const, Finset.card_range, nsmul_eq_mul]
          ring
  calc |(∑ y ∈ Finset.range img.height, ∑ x ∈ Finset.range img.width,
          ((simulate_venous img).pix y x : ℚ)) -
        ∑ y ∈ Finset.range img.height, ∑ x ∈ Finset.range img.width,
          (img.pix y x : ℚ)|
      ≤ |(∑ y ∈ Finset.range img.height, ∑ x ∈ Finset.range img.width,
          ((simulate_venous img).pix y x : ℚ)) -
        ∑ y ∈ Finset.range img.height, ∑ x ∈ Finset.range img.width,
          gaussBlurQ img y x| +
        |(∑ y ∈ Finset.range img.height, ∑ x ∈ Finset.range img.width,
          gaussBlurQ img y x) -
        ∑ y ∈ Finset.range img.height, ∑ x ∈ Finset.range img.width,
          (img.pix y x : ℚ)| := abs_sub_le _ _ _
    _ ≤ |(∑ y ∈ Finset.range img.height, ∑ x ∈ Finset.range img.width,
          ((simulate_venous img).pix y x : ℚ)) -
        ∑ y ∈ Finset.range img.height, ∑ x ∈ Finset.range img.width,
          gaussBlurQ img y x| +
        (|(∑ y ∈ Finset.range img.height, ∑ x ∈ Finset.range img.width,
          gaussBlurQ img y x) -
        ∑ y ∈ Finset.range img.height, ∑ x ∈ Finset.range img.width,
          blurH img y x| +
        |(∑ y ∈ Finset.range img.height, ∑ x ∈ Finset.range img.width,
          blurH img y x) -
        ∑ y ∈ Finset.range img.height, ∑ x ∈ Finset.range img.width,
          (img.pix y x : ℚ)|) := by
        exact add_le_add_left (abs_sub_le _ _ _) _
    _ ≤ (img.height : ℚ) * (img.width : ℚ) / 2 +
        (510 * (img.width : ℚ) + 510 * (img.height : ℚ)) := by
        exact add_le_add hC (add_le_add hB hA)
    _ = 510 * (img.height : ℚ) + 510 * (img.width : ℚ) +
        (img.height : ℚ) * (img.width : ℚ) / 2 := by ring

/-- C7: the venous Gaussian blur (radius 2, clamp-to-edge borders)
preserves the mean intensity within an explicit small tolerance: the
normalized kernel conserves energy, so the only deviations are the
clamp-to-edge border terms (at most 510 per row and per column of total
intensity) and the final rounding to 8 bits (at most half a level per
pixel), giving `|mean_out - mean_in| <= 510/width + 510/height + 1/2`,
which vanishes to the rounding term as the image grows. -/
theorem C7_venous_mean (img : Image) (hv : Valid img) :
    |meanQ (simulate_venous img) - meanQ img| ≤
      510 / (img.width : ℚ) + 510 / (img.height : ℚ) + 1 / 2 := by
  have hw := hv.1
  have hh := hv.2.1
  have hwQ : (0 : ℚ) < (img.width : ℚ) := by exact_mod_cast hw
  have hhQ : (0 : ℚ) < (img.height : ℚ) := by exact_mod_cast hh
  have hT : (0 : ℚ) < (total img : ℚ) := by
    have h1 : 0 < total img := Nat.mul_pos hh hw
    exact_mod_cast h1
  have ep : pixPos (simulate_venous img) = pixPos img := rfl
  have et : total (simulate_venous img) = total img := rfl
  have hmean : meanQ (simulate_venous img) - meanQ img =
      ((∑ p ∈ pixPos img, ((simulate_venous img).pix p.1 p.2 : ℚ)) -
        ∑ p ∈ pixPos img, (img.pix p.1 p.2 : ℚ)) / (total img : ℚ) := by
    unfold meanQ
    rw [ep, et, div_sub_div_same]
  rw [hmean, abs_div, abs_of_pos hT]
  refine le_trans ((div_le_div_iff_of_pos_right hT).2 (venous_sum_dev img hv)) (le_of_eq ?_)
  have htot : (total img : ℚ) = (img.height : ℚ) * (img.width : ℚ) := by
    unfold total
    push_cast
    ring
  have hw' : (img.width : ℚ) ≠ 0 := ne_of_gt hwQ
  have hh' : (img.height : ℚ) ≠ 0 := ne_of_gt hhQ
  rw [htot]
  field_simp
  ring

/-- C7 witness: the bound instantiated on the uniform 2-by-2 image. -/
theorem C7_witness :
    |meanQ (simulate_venous imgUniform) - meanQ imgUniform| ≤
      510 / (imgUniform.width : ℚ) + 510 / (imgUniform.height : ℚ) + 1 / 2 :=
  C7_venous_mean imgUniform (by decide)

/-! ### Equalization is not idempotent (C8) -/

theorem pixPos_congr {a b : Image} (hs : sameImage a b) : pixPos a = pixPos b := by
  unfold pixPos
  rw [hs.1, hs.2.1]

theorem total_congr {a b : Image} (hs : sameImage a b) : total a = total b := by
  unfold total
  rw [hs.1, hs.2.1]

theorem hist_congr {a b : Image} (hs : sameImage a b) (v : ℕ) :
    hist a v = hist b v := by
  unfold hist
  rw [pixPos_congr hs]
  refine Finset.sum_congr rfl fun p hp => ?_
  obtain ⟨h1, h2⟩ := mem_pixPos.1 hp
  rw [hs.2.2 p.1 (hs.2.1 ▸ h1) p.2 (hs.1 ▸ h2)]

theorem cdf_congr {a b : Image} (hs : sameImage a b) (v : ℕ) :
    cdf a v = cdf b v := by
  unfold cdf
  exact Finset.sum_congr rfl fun u _ => hist_congr hs u

theorem imgMin_congr {a b : Image} (hs : sameImage a b) : imgMin a = imgMin b := by
  unfold imgMin
  rw [pixPos_congr hs]
  refine Finset.fold_congr fun p hp => ?_
  obtain ⟨h1, h2⟩ := mem_pixPos.1 hp
  exact hs.2.2 p.1 (hs.2.1 ▸ h1) p.2 (hs.1 ▸ h2)

theorem cdfMin_congr {a b : Image} (hs : sameImage a b) : cdfMin a = cdfMin b := by
  unfold cdfMin
  rw [imgMin_congr hs, cdf_congr hs]

theorem equalize_congr {a b : Image} (hs : sameImage a b) :
    sameImage (equalize a) (equalize b) := by
  refine ⟨hs.1, hs.2.1, fun y hy x hx => ?_⟩
  have hpix : a.pix y x = b.pix y x := hs.2.2 y hy x hx
  show (if cdfMin a = total a then a.pix y x else _) =
    (if cdfMin b = total b then b.pix y x else _)
  rw [cdfMin_congr hs, total_congr hs, hpix, cdf_congr hs]

theorem hist_pos_of_pix {img : Image} {y x : ℕ} (hy : y < img.height)
    (hx : x < img.width) : 0 < hist img (img.pix y x) := by
  unfold hist
  rw [Nat.pos_iff_ne_zero]
  intro h0
  have := (Finset.sum_eq_zero_iff.1 h0) (y, x) (mem_pixPos.2 ⟨hy, hx⟩)
  simp at this

theorem count_le_range (n a : ℕ) :
    ∑ x ∈ Finset.range n, (if x ≤ a then (1 : ℕ) else 0) = min (a + 1) n := by
  induction n with
  | zero => simp
  | succ n ih =>
    rw [Finset.sum_range_succ, ih]
    split_ifs with h <;> omega

theorem cdf_row (img : Image) (hh : img.height = 1) (v : ℕ) :
    cdf img v = ∑ x ∈ Finset.range img.width, (if img.pix 0 x ≤ v then 1 else 0) := by
  rw [cdf_eq_card]
  show ∑ p ∈ Finset.range img.height ×ˢ Finset.range img.width, _ = _
  rw [hh, Finset.sum_product, Finset.sum_range_one]

/-- Computes a cumulative count on a one-row image whose level-`v`
sublevel set is an initial segment of columns. -/
theorem cdf_by_cut {img : Image} (hh : img.height = 1) {v c : ℕ}
    (hcut : ∀ x < img.width, (img.pix 0 x ≤ v ↔ x ≤ c)) :
    cdf img v = min (c + 1) img.width := by
  rw [cdf_row img hh v, ← count_le_range img.width c]
  refine Finset.sum_congr rfl fun x hx => ?_
  have h := hcut x (Finset.mem_range.1 hx)
  by_cases hc : x ≤ c
  · rw [if_pos (h.2 hc), if_pos hc]
  · rw [if_neg (fun hv => hc (h.1 hv)), if_neg hc]

theorem img513_valid : Valid img513 := by
  refine ⟨by decide, by decide, fun y _ x _ => ?_⟩
  show (if x = 0 then 0 else if x = 1 then 1 else if x ≤ 256 then 2 else 3) ≤ 255
  split_ifs <;> omega

theorem img513_imgMin : imgMin img513 = 0 := by
  have h0 : (0, 0) ∈ pixPos img513 := mem_pixPos.2 ⟨by decide, by decide⟩
  have h1 : imgMin img513 ≤ img513.pix 0 0 := by simpa using imgMin_le_pix h0
  have h2 : img513.pix 0 0 = 0 := rfl
  omega

theorem img513_width : img513.width = 513 := rfl

theorem img513_cdf0 : cdf img513 0 = 1 := by
  have hcut : ∀ x < img513.width, (img513.pix 0 x ≤ 0 ↔ x ≤ 0) := by
    intro x _
    show (if x = 0 then 0 else if x = 1 then 1 else if x ≤ 256 then 2 else 3) ≤ 0 ↔ x ≤ 0
    split_ifs <;> omega
  have h := cdf_by_cut rfl hcut
  rw [img513_width] at h
  omega

theorem img513_cdf1 : cdf img513 1 = 2 := by
  have hcut : ∀ x < img513.width, (img513.pix 0 x ≤ 1 ↔ x ≤ 1) := by
    intro x _
    show (if x = 0 then 0 else if x = 1 then 1 else if x ≤ 256 then 2 else 3) ≤ 1 ↔ x ≤ 1
    split_ifs <;> omega
  have h := cdf_by_cut rfl hcut
  rw [img513_width] at h
  omega

theorem img513_cdf2 : cdf img513 2 = 257 := by
  have hcut : ∀ x < img513.width, (img513.pix 0 x ≤ 2 ↔ x ≤ 256) := by
    intro x _
    show (if x = 0 then 0 else if x = 1 then 1 else if x ≤ 256 then 2 else 3) ≤ 2 ↔ x ≤ 256
    split_ifs <;> omega
  have h := cdf_by_cut rfl hcut
  rw [img513_width] at h
  omega

theorem img513_cdf3 : cdf img513 3 = 513 := by
  have hcut : ∀ x < img513.width, (img513.pix 0 x ≤ 3 ↔ x ≤ 512) := by
    intro x hx
    rw [img513_width] at hx
    show (if x = 0 then 0 else if x = 1 then 1 else if x ≤ 256 then 2 else 3) ≤ 3 ↔ x ≤ 512
    split_ifs <;> omega
  have h := cdf_by_cut rfl hcut
  rw [img513_width] at h
  omega

theorem img513_cdfMin : cdfMin img513 = 1 := by
  unfold cdfMin
  rw [img513_imgMin, img513_cdf0]

theorem img513_pix_result : ∀ y : ℕ, ∀ x < 513,
    (equalize img513).pix y x =
      (if x ≤ 1 then 0 else if x ≤ 256 then 128 else 255) := by
  have ht : total img513 = 513 := rfl
  have hguard : cdfMin img513 ≠ total img513 := by
    rw [img513_cdfMin, ht]
    omega
  intro y x hx
  simp only [equalize]
  rw [if_neg hguard]
  by_cases h0 : x = 0
  · subst h0
    have hp : img513.pix y 0 = 0 := rfl
    rw [hp, img513_cdf0, img513_cdfMin, ht]
    with_unfolding_all decide
  by_cases h1 : x = 1
  · subst h1
    have hp : img513.pix y 1 = 1 := rfl
    rw [hp, img513_cdf1, img513_cdfMin, ht]
    with_unfolding_all decide
  by_cases h2 : x ≤ 256
  · have hp : img513.pix y x = 2 := by
      show (if x = 0 then 0 else if x = 1 then 1 else if x ≤ 256 then 2 else 3) = 2
      rw [if_neg h0, if_neg h1, if_pos h2]
    rw [hp, img513_cdf2, img513_cdfMin, ht, if_neg (by omega), if_pos h2]
    with_unfolding_all decide
  · have hp : img513.pix y x = 3 := by
      show (if x = 0 then 0 else if x = 1 then 1 else if x ≤ 256 then 2 else 3) = 3
      rw [if_neg h0, if_neg h1, if_neg h2]
    rw [hp, img513_cdf3, img513_cdfMin, ht, if_neg (by omega), if_neg h2]
    with_unfolding_all decide

theorem img513_same : sameImage (equalize img513) img513eq := by
  refine ⟨rfl, rfl, fun y _ x hx => ?_⟩
  exact img513_pix_result y x hx

theorem img513eq_imgMin : imgMin img513eq = 0 := by
  have h0 : (0, 0) ∈ pixPos img513eq := mem_pixPos.2 ⟨by decide, by decide⟩
  have h1 : imgMin img513eq ≤ img513eq.pix 0 0 := by simpa using imgMin_le_pix h0
  have h2 : img513eq.pix 0 0 = 0 := rfl
  omega

theorem img513eq_cdf0 : cdf img513eq 0 = 2 := by
  have hcut : ∀ x < img513eq.width, (img513eq.pix 0 x ≤ 0 ↔ x ≤ 1) := by
    intro x _
    show (if x ≤ 1 then 0 else if x ≤ 256 then 128 else 255) ≤ 0 ↔ x ≤ 1
    split_ifs <;> omega
  have h := cdf_by_cut rfl hcut
  have hw : img513eq.width = 513 := rfl
  rw [hw] at h
  omega

theorem img513eq_cdf128 : cdf img513eq 128 = 257 := by
  have hcut : ∀ x < img513eq.width, (img513eq.pix 0 x ≤ 128 ↔ x ≤ 256) := by
    intro x _
    show (if x ≤ 1 then 0 else if x ≤ 256 then 128 else 255) ≤ 128 ↔ x ≤ 256
    split_ifs <;> omega
  have h := cdf_by_cut rfl hcut
  have hw : img513eq.width = 513 := rfl
  rw [hw] at h
  omega

theorem img513eq_second : (equalize img513eq).pix 0 2 = 127 := by
  have ht : total img513eq = 513 := rfl
  have hm : cdfMin img513eq = 2 := by
    unfold cdfMin
    rw [img513eq_imgMin, img513eq_cdf0]
  simp only [equalize]
  rw [if_neg (by rw [hm, ht]; omega : ¬cdfMin img513eq = total img513eq)]
  have hp : img513eq.pix 0 2 = 128 := rfl
  rw [hp, img513eq_cdf128, hm, ht]
  with_unfolding_all decide

/-- C8: histogram equalization is not idempotent in general: there is a
valid Image with a non-uniform histogram (at least two occupied bins) on
which a second equalization pass changes the result. -/
theorem C8_equalize_not_idempotent :
    ∃ img : Image, Valid img ∧
      (∃ v1 v2, v1 ≠ v2 ∧ 0 < hist img v1 ∧ 0 < hist img v2) ∧
      ¬ sameImage (equalize (equalize img)) (equalize img) := by
  refine ⟨img513, img513_valid, ⟨0, 2, by omega, ?_, ?_⟩, fun hs => ?_⟩
  · exact @hist_pos_of_pix img513 0 0 (by decide) (by decide)
  · exact @hist_pos_of_pix img513 0 2 (by decide) (by decide)
  · have hpass2 := equalize_congr img513_same
    have h2a : (equalize (equalize img513)).pix 0 2 = (equalize img513eq).pix 0 2 :=
      hpass2.2.2 0 (show (0 : ℕ) < 1 by omega) 2 (show (2 : ℕ) < 513 by omega)
    have h2c : (equalize img513).pix 0 2 = 128 := by
      have h := img513_pix_result 0 2 (by omega)
      simpa using h
    have h2d : (equalize (equalize img513)).pix 0 2 = (equalize img513).pix 0 2 :=
      hs.2.2 0 (show (0 : ℕ) < 1 by omega) 2 (show (2 : ℕ) < 513 by omega)
    rw [h2a, img513eq_second, h2c] at h2d
    exact absurd h2d (by omega)

end MedSim
